import Mathlib

/-!
Verification development for the lyrics synchronization core of
`musicStreamingCore` (`src/frontend/script.js`, second script variant).

Time unit: JavaScript numbers holding seconds are embedded as exact integer
milliseconds (`ℤ`).  Every numeric literal the synchronization code compares
against is an exact multiple of one millisecond — cue timestamps carry
exactly three decimal places (`\.\d{3}` in the marker pattern, millisecond
precision in WebVTT cue times), and the tolerance constants are `2` s
(lookahead) and `0.1` s (end slack / word end slack) — so scaling by 1000 is
exact and preserves every comparison the program makes.  Strings are
embedded as `List Char` where scanning is needed, with `String` kept at the
API boundary.
-/

/-- Numeric value of a decimal digit character (JS `parseInt` on one digit). -/
def digitVal (c : Char) : ℕ := c.toNat - 48

/-- JS `String.prototype.trim`: drop whitespace from both ends. -/
def trimChars (l : List Char) : List Char :=
  ((l.dropWhile Char.isWhitespace).reverse.dropWhile Char.isWhitespace).reverse

/-- Tokenizer loop for the whitespace-split fallback; `acc` is the current
(reversed) in-progress token. -/
def wsTokensGo : List Char → List Char → List (List Char)
  | acc, [] => if acc = [] then [] else [acc.reverse]
  | acc, c :: cs =>
    if c.isWhitespace then
      if acc = [] then wsTokensGo [] cs else acc.reverse :: wsTokensGo [] cs
    else wsTokensGo (c :: acc) cs

/-- JS `text.split(/\s+/).filter(w => w.trim())`: splitting on maximal
whitespace runs and filtering out empty fragments leaves exactly the maximal
runs of non-whitespace characters, in order. -/
def wsTokens (l : List Char) : List (List Char) := wsTokensGo [] l

/-- A timestamp matched by the marker regular expression
`<(\d{2}:\d{2}:\d{2}\.\d{3})>`: the regex only ever captures the
three-part `HH:MM:SS.mmm` form (`ss` integral seconds, `ms` milliseconds). -/
structure RawTimestamp where
  hh : ℕ
  mm : ℕ
  ss : ℕ
  ms : ℕ
deriving DecidableEq

/-- `timeToSeconds` of `script.js` on the strings the marker regex can
capture (scaled to milliseconds): those always split into three
`:`-separated parts, so only the three-part branch
(`hours*3600 + minutes*60 + parseFloat(seconds)`) is reachable from
`parseCue`; the two-part `MM:SS.mmm` branch of the JS function is dead code
on that call path. -/
def timeToMs (ts : RawTimestamp) : ℤ :=
  ts.hh * 3600000 + ts.mm * 60000 + ts.ss * 1000 + ts.ms

/-- Match `\d{2}:\d{2}:\d{2}\.\d{3}` at the head of the character list,
returning the parsed timestamp and the rest of the input. -/
def matchTimestamp : List Char → Option (RawTimestamp × List Char)
  | a :: b :: ':' :: c :: d :: ':' :: e :: f :: '.' :: g :: h :: i :: rest =>
    if a.isDigit ∧ b.isDigit ∧ c.isDigit ∧ d.isDigit ∧ e.isDigit ∧ f.isDigit ∧
        g.isDigit ∧ h.isDigit ∧ i.isDigit then
      some (⟨10 * digitVal a + digitVal b,
             10 * digitVal c + digitVal d,
             10 * digitVal e + digitVal f,
             100 * digitVal g + 10 * digitVal h + digitVal i⟩,
            rest)
    else none
  | _ => none

/-- Match the whole marker pattern `<(\d{2}:\d{2}:\d{2}\.\d{3})>([^<]+)` at the
head of the input: `<`, a timestamp, `>`, then a greedy non-empty run of
characters other than `<` (the captured token).  Returns the timestamp, the
token, and the input after the match. -/
def matchMarker : List Char → Option (RawTimestamp × List Char × List Char)
  | '<' :: cs =>
    match matchTimestamp cs with
    | some (ts, '>' :: rest) =>
      if rest.takeWhile (fun x => x ≠ '<') = [] then none
      else some (ts, rest.takeWhile (fun x => x ≠ '<'),
                 rest.drop (rest.takeWhile (fun x => x ≠ '<')).length)
    | _ => none
  | _ => none

theorem matchTimestamp_length {l : List Char} {ts : RawTimestamp} {r : List Char}
    (h : matchTimestamp l = some (ts, r)) : r.length + 12 = l.length := by
  unfold matchTimestamp at h
  split at h
  · split at h
    · simp only [Option.some.injEq, Prod.mk.injEq] at h
      obtain ⟨-, h⟩ := h
      subst h
      simp
    · exact absurd h (by simp)
  · exact absurd h (by simp)

theorem matchMarker_length_lt {l : List Char} {ts : RawTimestamp}
    {tok rest : List Char} (h : matchMarker l = some (ts, tok, rest)) :
    rest.length < l.length := by
  unfold matchMarker at h
  split at h
  case _ cs =>
    split at h
    case _ ts' rest0 heq =>
      have hlen : rest0.length + 1 + 12 = cs.length := by
        have h2 := matchTimestamp_length heq
        simp only [List.length_cons] at h2
        omega
      split at h
      · exact absurd h (by simp)
      · simp only [Option.some.injEq, Prod.mk.injEq] at h
        obtain ⟨-, -, h⟩ := h
        subst h
        have hdrop : (rest0.drop (rest0.takeWhile (fun x => x ≠ '<')).length).length
            ≤ rest0.length := by
          rw [List.length_drop]
          omega
        simp only [List.length_cons]
        omega
    · exact absurd h (by simp)
  · exact absurd h (by simp)

/-- Fuelled scan loop; every iteration consumes at least one input character,
so `fuel = input length` runs the loop to completion (`scanMarkersAux_fuel`). -/
def scanMarkersAux : ℕ → List Char → List (RawTimestamp × List Char)
  | 0, _ => []
  | _, [] => []
  | fuel + 1, c :: cs =>
    match matchMarker (c :: cs) with
    | some (ts, tok, rest) => (ts, tok) :: scanMarkersAux fuel rest
    | none => scanMarkersAux fuel cs

/-- The scan loop `while ((match = wordRegex.exec(text)) !== null)`: find each
successive leftmost non-overlapping match of the marker regex, resuming after
the end of the previous match; when no match starts at the current position
the regex engine advances one character. -/
def scanMarkers (l : List Char) : List (RawTimestamp × List Char) :=
  scanMarkersAux l.length l

theorem scanMarkersAux_nil (fuel : ℕ) : scanMarkersAux fuel [] = [] := by
  cases fuel <;> rfl

/-- Any fuel of at least the input length runs the scan loop to completion:
the result no longer depends on the exact fuel. -/
theorem scanMarkersAux_fuel :
    ∀ (fuel fuel' : ℕ) (l : List Char), l.length ≤ fuel → l.length ≤ fuel' →
      scanMarkersAux fuel l = scanMarkersAux fuel' l := by
  intro fuel
  induction fuel using Nat.strong_induction_on with
  | _ fuel ih =>
    intro fuel' l hf hf'
    match l with
    | [] => rw [scanMarkersAux_nil, scanMarkersAux_nil]
    | c :: cs =>
      match fuel, fuel' with
      | 0, _ => simp at hf
      | _ + 1, 0 => simp at hf'
      | f + 1, f' + 1 =>
        simp only [List.length_cons] at hf hf'
        simp only [scanMarkersAux]
        cases hm : matchMarker (c :: cs) with
        | none => simp only; exact ih f (by omega) f' cs (by omega) (by omega)
        | some r =>
          obtain ⟨ts, tok, rest⟩ := r
          have hr := matchMarker_length_lt hm
          simp only [List.length_cons] at hr
          simp only [List.cons.injEq, true_and]
          exact ih f (by omega) f' rest (by omega) (by omega)

/-- `Word` of the data model: `{ time, text }` as pushed by `parseCue`. -/
structure Word where
  time : ℤ
  text : String
deriving DecidableEq

/-- A parsed cue, as built by `parseCue`: `{ index, start, end, words }`
(`end` is renamed `endTime`, a Lean keyword). -/
structure Cue where
  index : ℕ
  start : ℤ
  endTime : ℤ
  words : List Word
deriving DecidableEq

/-- `parseCue(cue, cueIndex)` of `script.js`: scan the raw text for embedded
`<HH:MM:SS.mmm>token` markers, emitting one word per match whose trimmed
token is non-empty; if no marker matched at all and the text is non-blank,
fall back to whitespace-splitting with every word at the cue's start time. -/
def parseCue (cueIndex : ℕ) (startT endT : ℤ) (text : String) : Cue :=
  let chars := text.toList
  let found := scanMarkers chars
  let markerWords := found.filterMap (fun m =>
    let w := trimChars m.2
    if w = [] then none else some (⟨timeToMs m.1, String.mk w⟩ : Word))
  let fallbackWords :=
    if found = [] ∧ trimChars chars ≠ [] then
      (wsTokens chars).map (fun tok => (⟨startT, String.mk (trimChars tok)⟩ : Word))
    else []
  { index := cueIndex, start := startT, endTime := endT,
    words := markerWords ++ fallbackWords }

/-- A raw timed-text cue as delivered by the text track. -/
structure RawCue where
  startTime : ℤ
  endTime : ℤ
  text : String
deriving DecidableEq

/-- The loop body of `loadAllCues`: parse each raw cue with its track index
and push it only when it produced at least one word. -/
def loadAllCuesFrom : ℕ → List RawCue → List Cue
  | _, [] => []
  | i, rc :: rest =>
    let parsed := parseCue i rc.startTime rc.endTime rc.text
    if parsed.words.length > 0 then parsed :: loadAllCuesFrom (i + 1) rest
    else loadAllCuesFrom (i + 1) rest

/-- `loadAllCues(track)` of `script.js`: builds `allCues` from the track's raw
cues, silently dropping every cue that parsed to zero words. -/
def loadAllCues (track : List RawCue) : List Cue := loadAllCuesFrom 0 track

/-- All cues parsed (no dropping), with track indices: the sequence
`parseCue(track.cues[i], i)` before `loadAllCues` filters it.  Used to state
that dropping a degenerate cue does not disturb the processing of the rest. -/
def allParsedFrom : ℕ → List RawCue → List Cue
  | _, [] => []
  | i, rc :: rest =>
    parseCue i rc.startTime rc.endTime rc.text :: allParsedFrom (i + 1) rest

/-! ### Synchronization engine state

The DOM effects of the engine are captured per line: the `active`/`played`
classes on the line element and the `active` class on each word span.  A
line's DOM element exists exactly when its index is in `displayedCues`
(`appendLyricLine` creates it at reveal time; `document.getElementById`
guards in `syncLyrics` are embedded as membership tests).  `setTimeout`
callbacks scheduled by the completion branch are recorded as pending
actions `(line index, delay in ms)`; they run in a later event-loop turn,
never inside the tick that scheduled them. -/

/-- `LOOKAHEAD` of the spec: lines are revealed `2` s (2000 ms) early. -/
def LOOKAHEAD_MS : ℤ := 2000

/-- `END_SLACK` of the spec: the active window extends `0.1` s (100 ms)
past the cue's end. -/
def END_SLACK_MS : ℤ := 100

/-- `WORD_END_SLACK` of the spec: the final word highlights `0.1` s
(100 ms) early. -/
def WORD_END_SLACK_MS : ℤ := 100

/-- Grace delay of the completion branch: `setTimeout(..., 100)`. -/
def GRACE_MS : ℤ := 100

/-- DOM state of one lyric line: the line element's `active` and `played`
classes and the `active` class of each of its word spans. -/
structure LineDom where
  isActive : Bool
  isPlayed : Bool
  wordsActive : List Bool
deriving DecidableEq

/-- The line element as `appendLyricLine` creates it: no state classes, one
idle span per word. -/
def LineDom.fresh (wordCount : ℕ) : LineDom :=
  { isActive := false, isPlayed := false,
    wordsActive := List.replicate wordCount false }

/-- The module-level mutable state of the player (second script variant):
`allCues`, `displayedCues`, `currentLyricIndex` / `previousLyricIndex`
(`-1` embedded as `none`), the per-line DOM state, and the not-yet-fired
`setTimeout` completions. -/
structure PlayerState where
  allCues : List Cue
  displayedCues : List ℕ
  currentLyricIndex : Option ℕ
  previousLyricIndex : Option ℕ
  dom : List LineDom
  pendingCompletions : List (ℕ × ℤ)
deriving DecidableEq

/-- Update entry `i` of a line-DOM list in place (no-op when out of range,
mirroring a failed element lookup). -/
def domModify (dom : List LineDom) (i : ℕ) (f : LineDom → LineDom) :
    List LineDom :=
  match dom.get? i with
  | some d => dom.set i (f d)
  | none => dom

/-- The loop shared by `appendLyricsIfNeeded` and the seek handler: walk
`allCues` with its positions, appending every position whose cue satisfies
`curTime >= cue.start - 2` and is not yet displayed. -/
def revealPassFrom (t : ℤ) : ℕ → List Cue → List ℕ → List ℕ
  | _, [], acc => acc
  | i, cue :: rest, acc =>
    revealPassFrom t (i + 1) rest
      (if cue.start - LOOKAHEAD_MS ≤ t ∧ i ∉ acc then acc ++ [i] else acc)

/-- `appendLyricsIfNeeded(curTime)` restricted to its effect on
`displayedCues` (creating the line element is `LineDom.fresh`, the initial
value every `dom` entry already has). -/
def revealPass (t : ℤ) (cues : List Cue) (displayed : List ℕ) : List ℕ :=
  revealPassFrom t 0 cues displayed

/-- The active-line search of `syncLyrics`: the first (lowest) position `i`
in `allCues` order with `displayedCues.has(i)` and
`curTime >= cue.start && curTime <= cue.end + 0.1`; the loop `break`s at
the first hit. -/
def findActiveFrom (t : ℤ) (displayed : List ℕ) : ℕ → List Cue → Option ℕ
  | _, [] => none
  | i, cue :: rest =>
    if i ∈ displayed ∧ cue.start ≤ t ∧ t ≤ cue.endTime + END_SLACK_MS then
      some i
    else findActiveFrom t displayed (i + 1) rest

/-- Word-highlight flags for the active line at time `t`:
`curTime >= word.time || (last word && curTime >= word.time - 0.1)`,
computed per position by `classList.toggle('active', flag)`. -/
def wordFlagsFrom (t : ℤ) (total : ℕ) : ℕ → List Word → List Bool
  | _, [] => []
  | i, w :: rest =>
    (decide (w.time ≤ t) ||
      (decide (i = total - 1) && decide (w.time - WORD_END_SLACK_MS ≤ t))) ::
      wordFlagsFrom t total (i + 1) rest

/-- All word flags of a word list at time `t`. -/
def wordFlags (t : ℤ) (ws : List Word) : List Bool :=
  wordFlagsFrom t ws.length 0 ws

/-- First half of the transition branch of `syncLyrics`: if
`previousLyricIndex` names a displayed line other than the new active line,
force all its word spans to `active` now and schedule (`setTimeout`) its
completion — remove `active`, add `played`, reset the word spans — 100 ms
later. -/
def completePrev (a : Option ℕ) (s : PlayerState) : PlayerState :=
  match s.previousLyricIndex with
  | some p =>
    if some p ≠ a ∧ p ∈ s.displayedCues then
      { s with
        dom := domModify s.dom p (fun d =>
          { d with wordsActive := List.replicate d.wordsActive.length true }),
        pendingCompletions := s.pendingCompletions ++ [(p, GRACE_MS)] }
    else s
  | none => s

/-- Second half of the transition branch: mark the new active line (when
any, and its element exists) `active` and not `played`. -/
def activateNew (a : Option ℕ) (s : PlayerState) : PlayerState :=
  match a with
  | some i =>
    if i ∈ s.displayedCues then
      { s with
        dom := domModify s.dom i (fun d =>
          { d with isActive := true, isPlayed := false }) }
    else s
  | none => s

/-- The line-transition branch of `syncLyrics` (`activeIndex !==
currentLyricIndex`): complete the previous line, activate the new one, then
shift `previousLyricIndex ← currentLyricIndex` and
`currentLyricIndex ← activeIndex`. -/
def lineTransition (a : Option ℕ) (s : PlayerState) : PlayerState :=
  { activateNew a (completePrev a s) with
    previousLyricIndex := s.currentLyricIndex, currentLyricIndex := a }

/-- The word-highlighting pass of `syncLyrics`: when a line is active (and
its element exists), set every word span's `active` class from `wordFlags`. -/
def wordPass (t : ℤ) (a : Option ℕ) (s : PlayerState) : PlayerState :=
  match a with
  | some i =>
    if i ∈ s.displayedCues then
      match s.allCues.get? i with
      | some cue =>
        { s with
          dom := domModify s.dom i (fun d =>
            { d with wordsActive := wordFlags t cue.words }) }
      | none => s
    else s
  | none => s

/-- `appendLyricsIfNeeded` followed into the state: the tick's state after
the reveal pass. -/
def afterReveal (t : ℤ) (s : PlayerState) : PlayerState :=
  { s with displayedCues := revealPass t s.allCues s.displayedCues }

/-- The tick's resolved `activeIndex` (`none` embeds `-1`). -/
def activeIndexAt (t : ℤ) (s : PlayerState) : Option ℕ :=
  findActiveFrom t s.displayedCues 0 s.allCues

/-- `syncLyrics(curTime)` of `script.js`: early return on an empty cue list;
otherwise run the reveal pass, resolve the active line among displayed cues,
run the transition branch when it changed, then highlight words. -/
def syncLyrics (t : ℤ) (s : PlayerState) : PlayerState :=
  if s.allCues = [] then s
  else
    wordPass t (activeIndexAt t (afterReveal t s))
      (if activeIndexAt t (afterReveal t s) ≠ s.currentLyricIndex then
        lineTransition (activeIndexAt t (afterReveal t s)) (afterReveal t s)
      else afterReveal t s)

/-- The `seekBar` `input` listener, engine-visible part: after repositioning
playback to `newTime`, eagerly append every not-yet-displayed line with
`newTime >= cue.start - 2` (guarded by `allCues.length > 0`).  It touches no
other state: no line class changes, no completion, no active-index update. -/
def seekInput (newTime : ℤ) (s : PlayerState) : PlayerState :=
  if s.allCues = [] then s
  else { s with displayedCues := revealPass newTime s.allCues s.displayedCues }

/-- Session state right after `loadAllCues` filled `allCues`: nothing
displayed, no active or previous line, fresh DOM per cue, no pending
completions. -/
def initState (track : List RawCue) : PlayerState :=
  let cues := loadAllCues track
  { allCues := cues, displayedCues := [],
    currentLyricIndex := none, previousLyricIndex := none,
    dom := cues.map (fun c => LineDom.fresh c.words.length),
    pendingCompletions := [] }

/-- An engine entry point: a `timeupdate` tick or an explicit seek. -/
inductive Evt where
  | tick (t : ℤ)
  | seek (t : ℤ)
deriving DecidableEq

/-- Dispatch one event to the engine. -/
def stepEvt (e : Evt) (s : PlayerState) : PlayerState :=
  match e with
  | Evt.tick t => syncLyrics t s
  | Evt.seek t => seekInput t s

/-- Run a sequence of events in delivery order. -/
def runEvts (evts : List Evt) (s : PlayerState) : PlayerState :=
  evts.foldl (fun s e => stepEvt e s) s

/-- Position `i` holds a revealed line whose active window
`[start, end + END_SLACK]` contains `t`. -/
def cueHit (cues : List Cue) (displayed : List ℕ) (t : ℤ) (i : ℕ) : Bool :=
  decide (i ∈ displayed) &&
    match cues.get? i with
    | some cue => decide (cue.start ≤ t) && decide (t ≤ cue.endTime + END_SLACK_MS)
    | none => false

/-- The `active` flag of word `j` of line `i` in the modelled DOM. -/
def wordFlagOf (s : PlayerState) (i j : ℕ) : Bool :=
  match s.dom.get? i with
  | some d => d.wordsActive.getD j false
  | none => false

/-! ### Helper lemmas -/

theorem revealPassFrom_mono {t : ℤ} {x : ℕ} :
    ∀ (cues : List Cue) (i : ℕ) (acc : List ℕ), x ∈ acc →
      x ∈ revealPassFrom t i cues acc := by
  intro cues
  induction cues with
  | nil => intro i acc hx; simpa [revealPassFrom] using hx
  | cons cue rest ih =>
    intro i acc hx
    simp only [revealPassFrom]
    apply ih
    split
    · exact List.mem_append_left _ hx
    · exact hx

theorem revealPassFrom_mem {t : ℤ} :
    ∀ (cues : List Cue) (i n : ℕ) (acc : List ℕ) (cue : Cue),
      cues.get? n = some cue → cue.start - LOOKAHEAD_MS ≤ t →
      (i + n) ∈ revealPassFrom t i cues acc := by
  intro cues
  induction cues with
  | nil => intro i n acc cue h; simp at h
  | cons c rest ih =>
    intro i n acc cue hget hle
    match n with
    | 0 =>
      simp only [List.get?] at hget
      injection hget with hc
      subst hc
      simp only [revealPassFrom, Nat.add_zero]
      apply revealPassFrom_mono
      split
      · exact List.mem_append_right _ (List.mem_singleton.mpr rfl)
      · next hcond =>
        rw [Decidable.not_and_iff_or_not] at hcond
        rcases hcond with h | h
        · exact absurd hle h
        · exact Decidable.not_not.mp h
    | m + 1 =>
      simp only [List.get?] at hget
      simp only [revealPassFrom]
      have hrec := ih (i + 1) m
        (if c.start - LOOKAHEAD_MS ≤ t ∧ i ∉ acc then acc ++ [i] else acc)
        cue hget hle
      have harith : i + 1 + m = i + (m + 1) := by omega
      rwa [harith] at hrec

theorem findActiveFrom_mem {t : ℤ} {displayed : List ℕ} :
    ∀ (cues : List Cue) (i m : ℕ),
      findActiveFrom t displayed i cues = some m → m ∈ displayed := by
  intro cues
  induction cues with
  | nil => intro i m h; simp [findActiveFrom] at h
  | cons cue rest ih =>
    intro i m h
    simp only [findActiveFrom] at h
    split at h
    · next hc =>
      injection h with h
      subst h
      exact hc.1
    · exact ih (i + 1) m h

theorem findActiveFrom_hit {t : ℤ} {displayed : List ℕ} :
    ∀ (cues : List Cue) (i m : ℕ),
      findActiveFrom t displayed i cues = some m →
      i ≤ m ∧ ∃ cue, cues.get? (m - i) = some cue ∧
        cue.start ≤ t ∧ t ≤ cue.endTime + END_SLACK_MS := by
  intro cues
  induction cues with
  | nil => intro i m h; simp [findActiveFrom] at h
  | cons cue rest ih =>
    intro i m h
    simp only [findActiveFrom] at h
    split at h
    · next hc =>
      injection h with h
      subst h
      exact ⟨le_refl _, cue, by simp, hc.2.1, hc.2.2⟩
    · obtain ⟨hle, c, hget, h1, h2⟩ := ih (i + 1) m h
      refine ⟨by omega, c, ?_, h1, h2⟩
      have : m - i = (m - (i + 1)) + 1 := by omega
      rw [this]
      simpa using hget

theorem findActiveFrom_min {t : ℤ} {displayed : List ℕ} :
    ∀ (cues : List Cue) (i m : ℕ),
      findActiveFrom t displayed i cues = some m →
      ∀ j, i ≤ j → j < m → ∀ cue, cues.get? (j - i) = some cue →
        ¬(j ∈ displayed ∧ cue.start ≤ t ∧ t ≤ cue.endTime + END_SLACK_MS) := by
  intro cues
  induction cues with
  | nil => intro i m h; simp [findActiveFrom] at h
  | cons cue rest ih =>
    intro i m h j hij hjm c hget
    simp only [findActiveFrom] at h
    split at h
    · next hc =>
      injection h with h
      omega
    · next hc =>
      by_cases hji : j = i
      · subst hji
        simp only [Nat.sub_self, List.get?] at hget
        injection hget with hc'
        subst hc'
        exact hc
      · have : j - i = (j - (i + 1)) + 1 := by omega
        rw [this] at hget
        simp only [List.get?] at hget
        exact ih (i + 1) m h j (by omega) hjm c hget

theorem findActiveFrom_total {t : ℤ} {displayed : List ℕ} :
    ∀ (cues : List Cue) (i n : ℕ) (cue : Cue),
      cues.get? n = some cue → (i + n) ∈ displayed →
      cue.start ≤ t → t ≤ cue.endTime + END_SLACK_MS →
      ∃ m, findActiveFrom t displayed i cues = some m ∧ m ≤ i + n := by
  intro cues
  induction cues with
  | nil => intro i n cue h; simp at h
  | cons c rest ih =>
    intro i n cue hget hmem h1 h2
    simp only [findActiveFrom]
    split
    · exact ⟨i, rfl, by omega⟩
    · next hc =>
      match n with
      | 0 =>
        simp only [List.get?] at hget
        injection hget with hc'
        subst hc'
        simp only [Nat.add_zero] at hmem
        exact absurd ⟨hmem, h1, h2⟩ hc
      | m + 1 =>
        simp only [List.get?] at hget
        obtain ⟨k, hk, hkle⟩ := ih (i + 1) m cue hget (by
          have : i + 1 + m = i + (m + 1) := by omega
          rwa [this]) h1 h2
        exact ⟨k, hk, by omega⟩

theorem completePrev_allCues (a : Option ℕ) (s : PlayerState) :
    (completePrev a s).allCues = s.allCues := by
  unfold completePrev
  split
  · split <;> rfl
  · rfl

theorem completePrev_displayed (a : Option ℕ) (s : PlayerState) :
    (completePrev a s).displayedCues = s.displayedCues := by
  unfold completePrev
  split
  · split <;> rfl
  · rfl

theorem activateNew_allCues (a : Option ℕ) (s : PlayerState) :
    (activateNew a s).allCues = s.allCues := by
  unfold activateNew
  split
  · split <;> rfl
  · rfl

theorem activateNew_displayed (a : Option ℕ) (s : PlayerState) :
    (activateNew a s).displayedCues = s.displayedCues := by
  unfold activateNew
  split
  · split <;> rfl
  · rfl

theorem lineTransition_allCues (a : Option ℕ) (s : PlayerState) :
    (lineTransition a s).allCues = s.allCues := by
  show (activateNew a (completePrev a s)).allCues = s.allCues
  rw [activateNew_allCues, completePrev_allCues]

theorem lineTransition_displayed (a : Option ℕ) (s : PlayerState) :
    (lineTransition a s).displayedCues = s.displayedCues := by
  show (activateNew a (completePrev a s)).displayedCues = s.displayedCues
  rw [activateNew_displayed, completePrev_displayed]

theorem lineTransition_current (a : Option ℕ) (s : PlayerState) :
    (lineTransition a s).currentLyricIndex = a := rfl

theorem wordPass_allCues (t : ℤ) (a : Option ℕ) (s : PlayerState) :
    (wordPass t a s).allCues = s.allCues := by
  unfold wordPass
  split
  · split
    · split <;> rfl
    · rfl
  · rfl

theorem wordPass_displayed (t : ℤ) (a : Option ℕ) (s : PlayerState) :
    (wordPass t a s).displayedCues = s.displayedCues := by
  unfold wordPass
  split
  · split
    · split <;> rfl
    · rfl
  · rfl

theorem wordPass_current (t : ℤ) (a : Option ℕ) (s : PlayerState) :
    (wordPass t a s).currentLyricIndex = s.currentLyricIndex := by
  unfold wordPass
  split
  · split
    · split <;> rfl
    · rfl
  · rfl

theorem syncLyrics_allCues (t : ℤ) (s : PlayerState) :
    (syncLyrics t s).allCues = s.allCues := by
  unfold syncLyrics
  split
  · rfl
  · rw [wordPass_allCues]
    split
    · rw [lineTransition_allCues]
      rfl
    · rfl

theorem syncLyrics_displayed {s : PlayerState} (h : s.allCues ≠ []) (t : ℤ) :
    (syncLyrics t s).displayedCues = revealPass t s.allCues s.displayedCues := by
  unfold syncLyrics
  rw [if_neg h, wordPass_displayed]
  split
  · rw [lineTransition_displayed]
    rfl
  · rfl

theorem syncLyrics_current {s : PlayerState} (h : s.allCues ≠ []) (t : ℤ) :
    (syncLyrics t s).currentLyricIndex =
      findActiveFrom t (revealPass t s.allCues s.displayedCues) 0 s.allCues := by
  unfold syncLyrics
  rw [if_neg h, wordPass_current]
  split
  · rw [lineTransition_current]
    rfl
  · next hne =>
    simp only [ne_eq, Decidable.not_not] at hne
    exact hne.symm

theorem seekInput_allCues (T : ℤ) (s : PlayerState) :
    (seekInput T s).allCues = s.allCues := by
  unfold seekInput
  split <;> rfl

theorem seekInput_displayed {s : PlayerState} (h : s.allCues ≠ []) (T : ℤ) :
    (seekInput T s).displayedCues = revealPass T s.allCues s.displayedCues := by
  unfold seekInput
  rw [if_neg h]

theorem seekInput_dom (T : ℤ) (s : PlayerState) :
    (seekInput T s).dom = s.dom := by
  unfold seekInput
  split <;> rfl

theorem seekInput_current (T : ℤ) (s : PlayerState) :
    (seekInput T s).currentLyricIndex = s.currentLyricIndex := by
  unfold seekInput
  split <;> rfl

theorem seekInput_previous (T : ℤ) (s : PlayerState) :
    (seekInput T s).previousLyricIndex = s.previousLyricIndex := by
  unfold seekInput
  split <;> rfl

theorem seekInput_pending (T : ℤ) (s : PlayerState) :
    (seekInput T s).pendingCompletions = s.pendingCompletions := by
  unfold seekInput
  split <;> rfl

theorem loadAllCuesFrom_eq_filter :
    ∀ (i : ℕ) (track : List RawCue),
      loadAllCuesFrom i track =
        (allParsedFrom i track).filter (fun c => decide (c.words ≠ [])) := by
  intro i track
  induction track generalizing i with
  | nil => rfl
  | cons rc rest ih =>
    simp only [loadAllCuesFrom, allParsedFrom, List.filter]
    split
    · next hpos =>
      have : decide ((parseCue i rc.startTime rc.endTime rc.text).words ≠ []) = true := by
        simp only [decide_eq_true_eq]
        intro hnil
        rw [hnil] at hpos
        simp at hpos
      rw [this, ih (i + 1)]
    · next hpos =>
      have : decide ((parseCue i rc.startTime rc.endTime rc.text).words ≠ []) = false := by
        simp only [decide_eq_false_iff_not, ne_eq, Decidable.not_not]
        cases hw : (parseCue i rc.startTime rc.endTime rc.text).words with
        | nil => rfl
        | cons w ws => rw [hw] at hpos; simp at hpos
      rw [this, ih (i + 1)]

theorem mem_loadAllCuesFrom_words_ne :
    ∀ (i : ℕ) (track : List RawCue) (c : Cue),
      c ∈ loadAllCuesFrom i track → c.words ≠ [] := by
  intro i track
  induction track generalizing i with
  | nil => intro c h; simp [loadAllCuesFrom] at h
  | cons rc rest ih =>
    intro c h
    simp only [loadAllCuesFrom] at h
    split at h
    · next hpos =>
      rcases List.mem_cons.mp h with h | h
      · subst h
        intro hnil
        rw [hnil] at hpos
        simp at hpos
      · exact ih (i + 1) c h
    · exact ih (i + 1) c h

theorem wordFlagsFrom_mono {t1 t2 : ℤ} (hle : t1 ≤ t2) :
    ∀ (ws : List Word) (total i j : ℕ),
      (wordFlagsFrom t1 total i ws).getD j false = true →
      (wordFlagsFrom t2 total i ws).getD j false = true := by
  intro ws
  induction ws with
  | nil => intro total i j h; simp [wordFlagsFrom] at h
  | cons w rest ih =>
    intro total i j h
    match j with
    | 0 =>
      simp only [wordFlagsFrom, List.getD_cons_zero] at h ⊢
      simp only [Bool.or_eq_true, decide_eq_true_eq, Bool.and_eq_true] at h ⊢
      rcases h with h | ⟨hlast, h⟩
      · exact Or.inl (le_trans h hle)
      · exact Or.inr ⟨hlast, le_trans h hle⟩
    | n + 1 =>
      simp only [wordFlagsFrom, List.getD_cons_succ] at h ⊢
      exact ih total (i + 1) n h

theorem wordFlags_mono {t1 t2 : ℤ} (hle : t1 ≤ t2) (ws : List Word) (j : ℕ)
    (h : (wordFlags t1 ws).getD j false = true) :
    (wordFlags t2 ws).getD j false = true :=
  wordFlagsFrom_mono hle ws ws.length 0 j h

theorem get?_set_self :
    ∀ (l : List LineDom) (i : ℕ) (d : LineDom), i < l.length →
      (l.set i d).get? i = some d := by
  intro l
  induction l with
  | nil => intro i d h; simp at h
  | cons x xs ih =>
    intro i d h
    match i with
    | 0 => rfl
    | n + 1 =>
      simp only [List.set, List.get?]
      exact ih n d (by simpa using h)

theorem domModify_length (dom : List LineDom) (i : ℕ) (f : LineDom → LineDom) :
    (domModify dom i f).length = dom.length := by
  unfold domModify
  split
  · simp
  · rfl

theorem domModify_get_self (dom : List LineDom) (i : ℕ) (f : LineDom → LineDom) :
    (domModify dom i f).get? i = (dom.get? i).map f := by
  unfold domModify
  cases hd : dom.get? i with
  | none => simp only [Option.map_none']; exact hd
  | some d =>
    have hlt : i < dom.length := by
      by_contra hge
      rw [List.get?_eq_none.mpr (by omega)] at hd
      exact absurd hd (by simp)
    simp only [Option.map_some']
    exact get?_set_self dom i (f d) hlt

theorem wordPass_dom_some {s : PlayerState} {i : ℕ} {cue : Cue} (t : ℤ)
    (hmem : i ∈ s.displayedCues) (hget : s.allCues.get? i = some cue) :
    (wordPass t (some i) s).dom =
      domModify s.dom i (fun d => { d with wordsActive := wordFlags t cue.words }) := by
  unfold wordPass
  dsimp only
  rw [if_pos hmem, hget]

theorem completePrev_dom_length (a : Option ℕ) (s : PlayerState) :
    (completePrev a s).dom.length = s.dom.length := by
  unfold completePrev
  split
  · split
    · simp [domModify_length]
    · rfl
  · rfl

theorem activateNew_dom_length (a : Option ℕ) (s : PlayerState) :
    (activateNew a s).dom.length = s.dom.length := by
  unfold activateNew
  split
  · split
    · simp [domModify_length]
    · rfl
  · rfl

theorem lineTransition_dom_length (a : Option ℕ) (s : PlayerState) :
    (lineTransition a s).dom.length = s.dom.length := by
  show (activateNew a (completePrev a s)).dom.length = s.dom.length
  rw [activateNew_dom_length, completePrev_dom_length]

theorem syncLyrics_nil {s : PlayerState} (h : s.allCues = []) (t : ℤ) :
    syncLyrics t s = s := by
  unfold syncLyrics
  exact if_pos h

/-- After a tick on which line `i` is active, line `i`'s word spans hold
exactly `wordFlags t` of its words (when the line's DOM entry exists at
all; otherwise there is still no entry). -/
theorem syncLyrics_dom_words {s : PlayerState} (h : s.allCues ≠ []) (t : ℤ)
    {i : ℕ} (ha : (syncLyrics t s).currentLyricIndex = some i)
    {cue : Cue} (hget : s.allCues.get? i = some cue) :
    ((syncLyrics t s).dom.get? i).map LineDom.wordsActive =
      (s.dom.get? i).map (fun _ => wordFlags t cue.words) := by
  have hfa : findActiveFrom t (revealPass t s.allCues s.displayedCues) 0 s.allCues
      = some i := by
    rw [← syncLyrics_current h t]; exact ha
  have hmem : i ∈ revealPass t s.allCues s.displayedCues :=
    findActiveFrom_mem s.allCues 0 i hfa
  unfold syncLyrics
  rw [if_neg h]
  have hA : activeIndexAt t (afterReveal t s) = some i := hfa
  rw [hA]
  set s2 := if some i ≠ s.currentLyricIndex
    then lineTransition (some i) (afterReveal t s) else afterReveal t s with hs2
  have hs2disp : s2.displayedCues = revealPass t s.allCues s.displayedCues := by
    rw [hs2]
    split
    · rw [lineTransition_displayed]; rfl
    · rfl
  have hs2cues : s2.allCues = s.allCues := by
    rw [hs2]
    split
    · rw [lineTransition_allCues]; rfl
    · rfl
  have hs2len : s2.dom.length = s.dom.length := by
    rw [hs2]
    split
    · rw [lineTransition_dom_length]; rfl
    · rfl
  have hmem2 : i ∈ s2.displayedCues := by rw [hs2disp]; exact hmem
  have hget2 : s2.allCues.get? i = some cue := by rw [hs2cues]; exact hget
  rw [wordPass_dom_some t hmem2 hget2, domModify_get_self]
  cases hd : s.dom.get? i with
  | none =>
    have : s2.dom.get? i = none := by
      rw [List.get?_eq_none] at hd ⊢
      omega
    rw [this]
    rfl
  | some d =>
    have hlt : i < s.dom.length := by
      by_contra hge
      rw [List.get?_eq_none.mpr (by omega)] at hd
      exact absurd hd (by simp)
    have : ∃ d2, s2.dom.get? i = some d2 := by
      cases hd2 : s2.dom.get? i with
      | none =>
        rw [List.get?_eq_none] at hd2
        omega
      | some d2 => exact ⟨d2, rfl⟩
    obtain ⟨d2, hd2⟩ := this
    rw [hd2]
    rfl

theorem wsTokensGo_sound :
    ∀ (l acc : List Char), (∀ c ∈ acc, c.isWhitespace = false) →
      ∀ tok ∈ wsTokensGo acc l, tok ≠ [] ∧ ∀ c ∈ tok, c.isWhitespace = false := by
  intro l
  induction l with
  | nil =>
    intro acc hacc tok htok
    simp only [wsTokensGo] at htok
    split at htok
    · simp at htok
    · next ha =>
      rw [List.mem_singleton] at htok
      subst htok
      refine ⟨by simpa using ha, ?_⟩
      intro c hc
      exact hacc c (List.mem_reverse.mp hc)
  | cons c cs ih =>
    intro acc hacc tok htok
    simp only [wsTokensGo] at htok
    by_cases hc : c.isWhitespace
    · rw [if_pos hc] at htok
      by_cases ha : acc = []
      · rw [if_pos ha] at htok
        exact ih [] (by simp) tok htok
      · rw [if_neg ha] at htok
        rcases List.mem_cons.mp htok with h | h
        · subst h
          refine ⟨by simpa using ha, ?_⟩
          intro x hx
          exact hacc x (List.mem_reverse.mp hx)
        · exact ih [] (by simp) tok h
    · rw [if_neg hc] at htok
      refine ih (c :: acc) ?_ tok htok
      intro x hx
      rcases List.mem_cons.mp hx with h | h
      · subst h; exact Bool.eq_false_iff.mpr hc
      · exact hacc x h

theorem wsTokens_sound {l tok : List Char} (htok : tok ∈ wsTokens l) :
    tok ≠ [] ∧ ∀ c ∈ tok, c.isWhitespace = false :=
  wsTokensGo_sound l [] (by simp) tok htok

theorem dropWhile_eq_self_of {p : Char → Bool} :
    ∀ l : List Char, (∀ c ∈ l, p c = false) → l.dropWhile p = l := by
  intro l h
  cases l with
  | nil => rfl
  | cons c cs =>
    simp only [List.dropWhile, h c (List.mem_cons_self c cs)]

theorem trimChars_eq_self {l : List Char}
    (h : ∀ c ∈ l, c.isWhitespace = false) : trimChars l = l := by
  unfold trimChars
  rw [dropWhile_eq_self_of l h,
      dropWhile_eq_self_of _ (fun c hc => h c (List.mem_reverse.mp hc)),
      List.reverse_reverse]

theorem mem_dropWhile_of {p : Char → Bool} :
    ∀ (l : List Char) (c : Char), c ∈ l → p c = false → c ∈ l.dropWhile p := by
  intro l
  induction l with
  | nil => intro c h; simp at h
  | cons x xs ih =>
    intro c hc hp
    by_cases hx : p x
    · simp only [List.dropWhile, hx]
      rcases List.mem_cons.mp hc with h | h
      · subst h; rw [hx] at hp; exact absurd hp (by simp)
      · exact ih c h hp
    · simp only [List.dropWhile, Bool.eq_false_iff.mpr hx]
      exact hc

theorem mem_trimChars {l : List Char} {c : Char} (hc : c ∈ l)
    (hw : c.isWhitespace = false) : c ∈ trimChars l := by
  unfold trimChars
  rw [List.mem_reverse]
  exact mem_dropWhile_of _ c (List.mem_reverse.mpr (mem_dropWhile_of l c hc hw)) hw

theorem trimChars_ne_nil {l : List Char} {c : Char} (hc : c ∈ l)
    (hw : c.isWhitespace = false) : trimChars l ≠ [] := by
  intro hnil
  have := mem_trimChars hc hw
  rw [hnil] at this
  simp at this

/-! ### Well-formed marker texts (for the parsing round-trip) -/

/-- The decimal digit character for `n < 10`. -/
def digitChar (n : ℕ) : Char := Char.ofNat (48 + n)

/-- Render `n < 100` as two decimal digits. -/
def render2 (n : ℕ) : List Char := [digitChar (n / 10), digitChar (n % 10)]

/-- Render `n < 1000` as three decimal digits. -/
def render3 (n : ℕ) : List Char :=
  [digitChar (n / 100), digitChar (n / 10 % 10), digitChar (n % 10)]

/-- One well-formed embedded timestamp marker followed by its token. -/
structure MarkerSpec where
  hh : ℕ
  mm : ℕ
  ss : ℕ
  ms : ℕ
  tok : List Char
deriving DecidableEq

/-- Well-formedness: field ranges fit the digit counts, the token contains
no `<` (so the greedy `[^<]+` captures exactly it) and does not trim to
nothing (so `parseCue` keeps its word). -/
def MarkerSpec.wf (m : MarkerSpec) : Prop :=
  m.hh < 100 ∧ m.mm < 100 ∧ m.ss < 100 ∧ m.ms < 1000 ∧
    ('<' ∉ m.tok) ∧ trimChars m.tok ≠ []

instance (m : MarkerSpec) : Decidable m.wf := by
  unfold MarkerSpec.wf
  infer_instance

/-- The raw text `<HH:MM:SS.mmm>token` of one marker. -/
def renderMarker (m : MarkerSpec) : List Char :=
  '<' :: (render2 m.hh ++ ':' :: render2 m.mm ++ ':' :: render2 m.ss ++
    '.' :: render3 m.ms ++ '>' :: m.tok)

/-- A cue text composed solely of well-formed markers followed by words. -/
def renderMarkers (l : List MarkerSpec) : List Char :=
  (l.map renderMarker).flatten

theorem digitChar_isDigit {n : ℕ} (h : n < 10) : (digitChar n).isDigit = true := by
  interval_cases n <;> decide

theorem digitVal_digitChar {n : ℕ} (h : n < 10) : digitVal (digitChar n) = n := by
  interval_cases n <;> decide

theorem matchTimestamp_render (m : MarkerSpec) (hwf : m.wf) (post : List Char) :
    matchTimestamp (render2 m.hh ++ ':' :: render2 m.mm ++ ':' :: render2 m.ss ++
        '.' :: render3 m.ms ++ '>' :: m.tok ++ post) =
      some (⟨m.hh, m.mm, m.ss, m.ms⟩, '>' :: m.tok ++ post) := by
  obtain ⟨h1, h2, h3, h4, -, -⟩ := hwf
  have d1 : m.hh / 10 < 10 := by omega
  have d2 : m.hh % 10 < 10 := by omega
  have d3 : m.mm / 10 < 10 := by omega
  have d4 : m.mm % 10 < 10 := by omega
  have d5 : m.ss / 10 < 10 := by omega
  have d6 : m.ss % 10 < 10 := by omega
  have d7 : m.ms / 100 < 10 := by omega
  have d8 : m.ms / 10 % 10 < 10 := by omega
  have d9 : m.ms % 10 < 10 := by omega
  simp only [render2, render3, List.cons_append, List.nil_append, matchTimestamp,
    digitChar_isDigit d1, digitChar_isDigit d2, digitChar_isDigit d3,
    digitChar_isDigit d4, digitChar_isDigit d5, digitChar_isDigit d6,
    digitChar_isDigit d7, digitChar_isDigit d8, digitChar_isDigit d9,
    and_self, if_true]
  simp only [Option.some.injEq, Prod.mk.injEq, RawTimestamp.mk.injEq,
    digitVal_digitChar d1, digitVal_digitChar d2, digitVal_digitChar d3,
    digitVal_digitChar d4, digitVal_digitChar d5, digitVal_digitChar d6,
    digitVal_digitChar d7, digitVal_digitChar d8, digitVal_digitChar d9]
  exact ⟨⟨by omega, by omega, by omega, by omega⟩, trivial⟩

theorem takeWhile_append_stop {tok rest : List Char} (hnot : '<' ∉ tok)
    (hrest : rest = [] ∨ ∃ r, rest = '<' :: r) :
    (tok ++ rest).takeWhile (fun x => x ≠ '<') = tok := by
  induction tok with
  | nil =>
    rcases hrest with h | ⟨r, h⟩
    · subst h; rfl
    · subst h; simp [List.takeWhile]
  | cons c cs ih =>
    have hc : c ≠ '<' := fun h => hnot (h ▸ List.mem_cons_self c cs)
    simp only [List.cons_append, List.takeWhile, decide_eq_true hc]
    exact congrArg (fun l => c :: l) (ih (fun h => hnot (List.mem_cons_of_mem c h)))

theorem matchMarker_render (m : MarkerSpec) (hwf : m.wf) (post : List Char)
    (hpost : post = [] ∨ ∃ r, post = '<' :: r) :
    matchMarker (renderMarker m ++ post) =
      some (⟨m.hh, m.mm, m.ss, m.ms⟩, m.tok, post) := by
  have htok_ne : m.tok ≠ [] := by
    intro h
    exact hwf.2.2.2.2.2 (by rw [h]; rfl)
  have htake : (m.tok ++ post).takeWhile (fun x => x ≠ '<') = m.tok :=
    takeWhile_append_stop hwf.2.2.2.2.1 hpost
  have hmt := matchTimestamp_render m hwf post
  simp only [List.cons_append, List.append_assoc] at hmt
  unfold renderMarker
  simp only [List.cons_append, List.append_assoc]
  simp only [matchMarker]
  rw [hmt]
  simp only [htake]
  rw [if_neg htok_ne]
  rw [List.drop_left]

theorem scanMarkers_cons_of_match {l : List Char} {ts : RawTimestamp}
    {tok rest : List Char} (h : matchMarker l = some (ts, tok, rest)) :
    scanMarkers l = (ts, tok) :: scanMarkers rest := by
  match l with
  | [] => exact absurd h (by simp [matchMarker])
  | c :: cs =>
    unfold scanMarkers
    simp only [List.length_cons, scanMarkersAux, h]
    have hr := matchMarker_length_lt h
    simp only [List.length_cons] at hr
    rw [scanMarkersAux_fuel cs.length rest.length rest (by omega) (le_refl _)]

theorem scanMarkers_render :
    ∀ (l : List MarkerSpec), (∀ m ∈ l, m.wf) →
      scanMarkers (renderMarkers l) =
        l.map (fun m => ((⟨m.hh, m.mm, m.ss, m.ms⟩ : RawTimestamp), m.tok)) := by
  intro l
  induction l with
  | nil => intro; rfl
  | cons m rest ih =>
    intro hwf
    have hm := hwf m (List.mem_cons_self m rest)
    have hpost : renderMarkers rest = [] ∨ ∃ r, renderMarkers rest = '<' :: r := by
      cases rest with
      | nil => exact Or.inl rfl
      | cons m2 r2 =>
        exact Or.inr ⟨_, rfl⟩
    have hren : renderMarkers (m :: rest) = renderMarker m ++ renderMarkers rest := rfl
    rw [hren, scanMarkers_cons_of_match (matchMarker_render m hm _ hpost),
        ih (fun x hx => hwf x (List.mem_cons_of_mem m hx))]
    rfl

theorem cueHit_iff {cues : List Cue} {d : List ℕ} {t : ℤ} {i : ℕ} :
    cueHit cues d t i = true ↔
      i ∈ d ∧ ∃ cue, cues.get? i = some cue ∧
        cue.start ≤ t ∧ t ≤ cue.endTime + END_SLACK_MS := by
  unfold cueHit
  cases hg : cues.get? i with
  | none => simp
  | some c => simp

/-! ### Example tracks used by witnesses and counterexamples -/

/-- One cue with embedded per-word timestamps (the spec's own scenario). -/
def exMarkerTrack : List RawCue :=
  [⟨10000, 14000, "<00:00:10.000>Hello <00:00:11.500>world"⟩]

/-- Two overlapping cues (both windows contain `t = 6` s). -/
def exOverlapTrack : List RawCue :=
  [⟨0, 10000, "a b"⟩, ⟨5000, 15000, "c d"⟩]

/-- Two adjacent cues `[0,5)` and `[5,10)` (the spec's seek scenario). -/
def exAdjacentTrack : List RawCue :=
  [⟨0, 5000, "Hello there"⟩, ⟨5000, 10000, "General Kenobi"⟩]

/-! ### Claims -/

/-- C3: for every line list and every seek to time `T`, immediately after the
seek handler runs, every line with `start ≤ T + LOOKAHEAD` (2 s) is in the
revealed set, even if no ticks occurred between the previous position and
`T`. -/
theorem C3_seek_eager_reveal (s : PlayerState) (T : ℤ) (i : ℕ) (cue : Cue)
    (hget : s.allCues.get? i = some cue) (hle : cue.start ≤ T + LOOKAHEAD_MS) :
    i ∈ (seekInput T s).displayedCues := by
  have h : s.allCues ≠ [] := by
    intro hnil
    rw [hnil] at hget
    simp at hget
  rw [seekInput_displayed h]
  have hm : cue.start - LOOKAHEAD_MS ≤ T := by omega
  simpa using revealPassFrom_mem s.allCues 0 i s.displayedCues cue hget hm

theorem C3_witness :
    1 ∈ (seekInput 7000 (initState exAdjacentTrack)).displayedCues :=
  C3_seek_eager_reveal (initState exAdjacentTrack) 7000 1
    ⟨1, 5000, 10000, [⟨5000, "General"⟩, ⟨5000, "Kenobi"⟩]⟩
    (by decide) (by decide)

/-- C4: the revealed set (`displayedCues`) is non-decreasing: no tick and no
seek (in either direction) ever removes a line index from it. -/
theorem C4_revealed_monotone (s : PlayerState) (e : Evt) (x : ℕ)
    (hx : x ∈ s.displayedCues) : x ∈ (stepEvt e s).displayedCues := by
  cases e with
  | tick t =>
    show x ∈ (syncLyrics t s).displayedCues
    by_cases h : s.allCues = []
    · rw [syncLyrics_nil h]
      exact hx
    · rw [syncLyrics_displayed h]
      exact revealPassFrom_mono s.allCues 0 s.displayedCues hx
  | seek T =>
    show x ∈ (seekInput T s).displayedCues
    by_cases h : s.allCues = []
    · unfold seekInput
      rw [if_pos h]
      exact hx
    · rw [seekInput_displayed h]
      exact revealPassFrom_mono s.allCues 0 s.displayedCues hx

theorem C4_witness :
    0 ∈ (stepEvt (Evt.seek 0) (runEvts [Evt.tick 10000] (initState exMarkerTrack))).displayedCues :=
  C4_revealed_monotone (runEvts [Evt.tick 10000] (initState exMarkerTrack))
    (Evt.seek 0) 0 (by decide)

/-- A state in which any selected active line has already been revealed. -/
def ActiveRevealed (s : PlayerState) : Prop :=
  ∀ i, s.currentLyricIndex = some i → i ∈ s.displayedCues

theorem stepEvt_activeRevealed {s : PlayerState} (hs : ActiveRevealed s)
    (e : Evt) : ActiveRevealed (stepEvt e s) := by
  cases e with
  | tick t =>
    by_cases h : s.allCues = []
    · show ActiveRevealed (syncLyrics t s)
      rw [syncLyrics_nil h]
      exact hs
    · intro i hi
      show i ∈ (syncLyrics t s).displayedCues
      have hi' : findActiveFrom t (revealPass t s.allCues s.displayedCues) 0
          s.allCues = some i := by
        rw [← syncLyrics_current h t]
        exact hi
      rw [syncLyrics_displayed h]
      exact findActiveFrom_mem s.allCues 0 i hi'
  | seek T =>
    intro i hi
    have hi2 : (seekInput T s).currentLyricIndex = some i := hi
    rw [seekInput_current] at hi2
    have hmem := hs i hi2
    show i ∈ (seekInput T s).displayedCues
    by_cases h : s.allCues = []
    · unfold seekInput
      rw [if_pos h]
      exact hmem
    · rw [seekInput_displayed h]
      exact revealPassFrom_mono s.allCues 0 s.displayedCues hmem

theorem runEvts_activeRevealed :
    ∀ (evts : List Evt) {s : PlayerState}, ActiveRevealed s →
      ActiveRevealed (runEvts evts s) := by
  intro evts
  induction evts with
  | nil => intro s hs; exact hs
  | cons e rest ih => intro s hs; exact ih (stepEvt_activeRevealed hs e)

theorem initState_activeRevealed (track : List RawCue) :
    ActiveRevealed (initState track) := by
  intro i hi
  exact absurd hi (by simp [initState])

/-- C5: from session start, after any sequence of ticks and seeks, if a line
is selected as active then its index is in the revealed set: a line can
never become active without having first been revealed. -/
theorem C5_active_always_revealed (track : List RawCue) (evts : List Evt) :
    ActiveRevealed (runEvts evts (initState track)) :=
  runEvts_activeRevealed evts (initState_activeRevealed track)

theorem C5_witness :
    0 ∈ (runEvts [Evt.tick 10000] (initState exMarkerTrack)).displayedCues :=
  C5_active_always_revealed exMarkerTrack [Evt.tick 10000] 0 (by decide)

/-- C7 counterexample: with the spec's own two adjacent cues, after a tick at
`t = 1` s (line 0 active) and a seek straight to `t = 7` s, the claim says
line 0 is immediately marked completed as part of processing the seek; in
the code the seek handler and even the following tick at `t = 7` s leave
line 0 marked `active`, never `played`, and schedule no completion (the
transition fires with `previousLyricIndex = -1`). -/
theorem C7_cex_seek_no_immediate_completion :
    ((runEvts [Evt.tick 1000, Evt.seek 7000]
        (initState exAdjacentTrack)).dom.get? 0).map LineDom.isPlayed = some false ∧
    ((runEvts [Evt.tick 1000, Evt.seek 7000]
        (initState exAdjacentTrack)).dom.get? 0).map LineDom.isActive = some true ∧
    (runEvts [Evt.tick 1000, Evt.seek 7000]
        (initState exAdjacentTrack)).pendingCompletions = [] ∧
    (runEvts [Evt.tick 1000, Evt.seek 7000, Evt.tick 7000]
        (initState exAdjacentTrack)).currentLyricIndex = some 1 ∧
    ((runEvts [Evt.tick 1000, Evt.seek 7000, Evt.tick 7000]
        (initState exAdjacentTrack)).dom.get? 0).map LineDom.isPlayed = some false ∧
    ((runEvts [Evt.tick 1000, Evt.seek 7000, Evt.tick 7000]
        (initState exAdjacentTrack)).dom.get? 0).map LineDom.isActive = some true ∧
    (runEvts [Evt.tick 1000, Evt.seek 7000, Evt.tick 7000]
        (initState exAdjacentTrack)).pendingCompletions = [] := by
  decide

/-- C7 amended: the seek handler performs no completion at all — it changes
only the revealed set, leaving every line's and word's marking, the active
and previous indices, and the scheduled completions exactly as they were;
the pre-seek active line is completed only by a later tick's transition
logic (which defers completion by the usual 100 ms grace delay, and only
once that line has become the transition's previous index). -/
theorem C7_seek_changes_only_reveals (s : PlayerState) (T : ℤ) :
    (seekInput T s).dom = s.dom ∧
    (seekInput T s).pendingCompletions = s.pendingCompletions ∧
    (seekInput T s).currentLyricIndex = s.currentLyricIndex ∧
    (seekInput T s).previousLyricIndex = s.previousLyricIndex :=
  ⟨seekInput_dom T s, seekInput_pending T s, seekInput_current T s,
    seekInput_previous T s⟩

/-- C9: a raw cue whose parse yields zero words is not added to `allCues`,
and the remaining cues are still processed: `allCues` is exactly the
parse of every raw cue (with its track index) filtered to those with a
non-empty word list, so every stored line has at least one word. -/
theorem C9_degenerate_cues_dropped (track : List RawCue) :
    loadAllCues track =
      (allParsedFrom 0 track).filter (fun c => decide (c.words ≠ [])) ∧
    ∀ c ∈ loadAllCues track, c.words ≠ [] :=
  ⟨loadAllCuesFrom_eq_filter 0 track,
    fun c hc => mem_loadAllCuesFrom_words_ne 0 track c hc⟩

theorem C9_witness :
    loadAllCues [⟨10000, 14000, " "⟩, ⟨15000, 16000, "x"⟩] =
      (allParsedFrom 0 [⟨10000, 14000, " "⟩, ⟨15000, 16000, "x"⟩]).filter
        (fun c => decide (c.words ≠ [])) ∧
    (parseCue 1 15000 16000 "x").words ≠ [] :=
  ⟨(C9_degenerate_cues_dropped _).1,
    (C9_degenerate_cues_dropped [⟨10000, 14000, " "⟩, ⟨15000, 16000, "x"⟩]).2
      (parseCue 1 15000 16000 "x") (by decide)⟩

/-- C1 counterexample: two revealed overlapping lines both have `t = 6` s in
their windows, so the claim says the highest index (1) is selected; the
code's search loop `break`s at the first hit and selects index 0. -/
theorem C1_cex_first_hit_wins :
    (syncLyrics 6000 (initState exOverlapTrack)).currentLyricIndex = some 0 ∧
    cueHit (initState exOverlapTrack).allCues
      (revealPass 6000 (initState exOverlapTrack).allCues
        (initState exOverlapTrack).displayedCues) 6000 1 = true ∧
    (syncLyrics 6000 (initState exOverlapTrack)).currentLyricIndex ≠ some 1 := by
  decide

/-- C1 amended: at every tick at which at least one revealed line's window
`[start, end + END_SLACK]` contains the tick time, the engine selects
exactly one active line, and it is the one with the LOWEST index among the
revealed lines whose windows contain the tick time (the search loop breaks
at the first hit in ascending index order). -/
theorem C1_active_line_lowest_index (s : PlayerState) (t : ℤ)
    (h : s.allCues ≠ [])
    (hex : ∃ n, cueHit s.allCues (revealPass t s.allCues s.displayedCues) t n
      = true) :
    ∃ i, (syncLyrics t s).currentLyricIndex = some i ∧
      cueHit s.allCues (revealPass t s.allCues s.displayedCues) t i = true ∧
      ∀ j, cueHit s.allCues (revealPass t s.allCues s.displayedCues) t j = true
        → i ≤ j := by
  obtain ⟨n, hn⟩ := hex
  rw [cueHit_iff] at hn
  obtain ⟨hmem, cue, hget, h1, h2⟩ := hn
  obtain ⟨m, hfa, hmn⟩ :=
    findActiveFrom_total s.allCues 0 n cue hget (by simpa using hmem) h1 h2
  refine ⟨m, ?_, ?_, ?_⟩
  · rw [syncLyrics_current h t]
    exact hfa
  · rw [cueHit_iff]
    obtain ⟨-, cm, hgm, hm1, hm2⟩ := findActiveFrom_hit s.allCues 0 m hfa
    refine ⟨findActiveFrom_mem s.allCues 0 m hfa, cm, ?_, hm1, hm2⟩
    simpa using hgm
  · intro j hj
    rw [cueHit_iff] at hj
    obtain ⟨hjmem, cj, hjget, hj1, hj2⟩ := hj
    by_contra hlt
    exact findActiveFrom_min s.allCues 0 m hfa j (by omega) (by omega) cj
      (by simpa using hjget) ⟨hjmem, hj1, hj2⟩

theorem C1_witness :
    ∃ i, (syncLyrics 6000 (initState exOverlapTrack)).currentLyricIndex = some i ∧
      cueHit (initState exOverlapTrack).allCues
        (revealPass 6000 (initState exOverlapTrack).allCues
          (initState exOverlapTrack).displayedCues) 6000 i = true ∧
      ∀ j, cueHit (initState exOverlapTrack).allCues
        (revealPass 6000 (initState exOverlapTrack).allCues
          (initState exOverlapTrack).displayedCues) 6000 j = true → i ≤ j :=
  C1_active_line_lowest_index (initState exOverlapTrack) 6000 (by decide)
    ⟨0, by decide⟩

/-- C6 counterexample: with the spec's marker cue (words at 10 s and
11.5 s, window `[10, 14.1]` s), a tick at 12 s marks word 1 active; a later
tick at 10.5 s leaves the line active (both ticks lie in its window, so the
"continuous active span" is unbroken) yet `classList.toggle('active',
curTime >= word.time ...)` un-marks word 1. -/
theorem C6_cex_backward_tick_unmarks :
    (runEvts [Evt.tick 12000] (initState exMarkerTrack)).currentLyricIndex
      = some 0 ∧
    wordFlagOf (runEvts [Evt.tick 12000] (initState exMarkerTrack)) 0 1 = true ∧
    (runEvts [Evt.tick 12000, Evt.tick 10500]
      (initState exMarkerTrack)).currentLyricIndex = some 0 ∧
    wordFlagOf (runEvts [Evt.tick 12000, Evt.tick 10500]
      (initState exMarkerTrack)) 0 1 = false := by
  decide

/-- C6 amended: within one continuous active span of a line, the set of
word indices marked active never shrinks as long as the tick times do not
decrease: if a tick at `t1` leaves line `i` active with word `j` marked,
then any following tick at `t2 ≥ t1` that keeps line `i` active leaves word
`j` marked.  (A tick whose time moved backwards — a backward seek landing
inside the same line's window — can un-mark words, as the counterexample
shows: each tick recomputes every flag from
`curTime ≥ word.time` afresh.) -/
theorem C6_word_monotone_forward (s : PlayerState) (t1 t2 : ℤ) (i j : ℕ)
    (hle : t1 ≤ t2)
    (h1 : (syncLyrics t1 s).currentLyricIndex = some i)
    (h2 : (syncLyrics t2 (syncLyrics t1 s)).currentLyricIndex = some i)
    (hw : wordFlagOf (syncLyrics t1 s) i j = true) :
    wordFlagOf (syncLyrics t2 (syncLyrics t1 s)) i j = true := by
  by_cases hnil : s.allCues = []
  · rw [syncLyrics_nil hnil] at h1 hw ⊢
    rw [syncLyrics_nil hnil]
    exact hw
  · have hfa1 : findActiveFrom t1 (revealPass t1 s.allCues s.displayedCues) 0
        s.allCues = some i := by
      rw [← syncLyrics_current hnil t1]
      exact h1
    obtain ⟨-, cue, hget0, -, -⟩ := findActiveFrom_hit s.allCues 0 i hfa1
    have hget : s.allCues.get? i = some cue := by simpa using hget0
    have hdw1 := syncLyrics_dom_words hnil t1 h1 hget
    -- extract the word flags set by the first tick
    unfold wordFlagOf at hw
    cases hd1 : (syncLyrics t1 s).dom.get? i with
    | none => rw [hd1] at hw; exact absurd hw (by simp)
    | some d1 =>
      rw [hd1] at hw hdw1
      cases hd0 : s.dom.get? i with
      | none => rw [hd0] at hdw1; exact absurd hdw1 (by simp)
      | some d0 =>
        rw [hd0] at hdw1
        simp only [Option.map_some', Option.some.injEq] at hdw1
        have hw1 : d1.wordsActive.getD j false = true := hw
        rw [hdw1] at hw1
        have hw2 : (wordFlags t2 cue.words).getD j false = true :=
          wordFlags_mono hle cue.words j hw1
        -- the second tick rewrites line i's flags with `wordFlags t2`
        have hnil1 : (syncLyrics t1 s).allCues ≠ [] := by
          rw [syncLyrics_allCues]
          exact hnil
        have hget1 : (syncLyrics t1 s).allCues.get? i = some cue := by
          rw [syncLyrics_allCues]
          exact hget
        have hdw2 := syncLyrics_dom_words hnil1 t2 h2 hget1
        rw [hd1] at hdw2
        unfold wordFlagOf
        cases hd2 : (syncLyrics t2 (syncLyrics t1 s)).dom.get? i with
        | none => rw [hd2] at hdw2; exact absurd hdw2 (by simp)
        | some d2 =>
          rw [hd2] at hdw2
          simp only [Option.map_some', Option.some.injEq] at hdw2
          show d2.wordsActive.getD j false = true
          rw [hdw2]
          exact hw2

theorem C6_witness :
    wordFlagOf (syncLyrics 11500 (syncLyrics 10000 (initState exMarkerTrack)))
      0 0 = true :=
  C6_word_monotone_forward (initState exMarkerTrack) 10000 11500 0 0
    (by decide) (by decide) (by decide) (by decide)

theorem parseCue_words (cueIndex : ℕ) (startT endT : ℤ) (text : String) :
    (parseCue cueIndex startT endT text).words =
      (scanMarkers text.toList).filterMap (fun m =>
        if trimChars m.2 = [] then none
        else some (⟨timeToMs m.1, String.mk (trimChars m.2)⟩ : Word)) ++
      (if scanMarkers text.toList = [] ∧ trimChars text.toList ≠ [] then
        (wsTokens text.toList).map
          (fun tok => (⟨startT, String.mk (trimChars tok)⟩ : Word))
      else []) := rfl

/-- C10: if the cue text has at least one marker match but every matched
token trims to nothing, the fallback is suppressed (any match suffices to
suppress it), so the cue parses to zero words and is never stored in
`allCues` — even when the raw text does contain whitespace-delimited
tokens. -/
theorem C10_marker_suppresses_fallback (cueIndex : ℕ) (startT endT : ℤ)
    (text : String) (hne : scanMarkers text.toList ≠ [])
    (hall : ∀ m ∈ scanMarkers text.toList, trimChars m.2 = []) :
    (parseCue cueIndex startT endT text).words = [] ∧
    ∀ track, parseCue cueIndex startT endT text ∉ loadAllCues track := by
  have hwords : (parseCue cueIndex startT endT text).words = [] := by
    rw [parseCue_words]
    rw [if_neg (fun hcond => hne hcond.1)]
    rw [List.append_nil, List.filterMap_eq_nil_iff]
    intro m hm
    rw [if_pos (hall m hm)]
  refine ⟨hwords, ?_⟩
  intro track hmem
  exact mem_loadAllCuesFrom_words_ne 0 track _ hmem hwords

theorem C10_witness :
    scanMarkers "<00:00:10.000> ".toList ≠ [] ∧
    wsTokens "<00:00:10.000> ".toList ≠ [] ∧
    (parseCue 0 10000 14000 "<00:00:10.000> ").words = [] ∧
    parseCue 0 10000 14000 "<00:00:10.000> " ∉
      loadAllCues [⟨10000, 14000, "<00:00:10.000> "⟩] :=
  ⟨by decide, by decide,
    (C10_marker_suppresses_fallback 0 10000 14000 "<00:00:10.000> "
      (by decide) (by decide)).1,
    (C10_marker_suppresses_fallback 0 10000 14000 "<00:00:10.000> "
      (by decide) (by decide)).2 [⟨10000, 14000, "<00:00:10.000> "⟩]⟩

/-- C2 counterexample: the marker regex demands `\d{2}:\d{2}:\d{2}\.\d{3}`,
so the `MM:SS.mmm` marker `<01:23.456>` never matches; the claim would have
`parse` emit a word "hi" at 1×60+23.456 s = 83456 ms, but the scan finds no
marker at all and the whitespace fallback emits the entire raw text as one
word at the cue's start time instead. -/
theorem C2_cex_mmss_marker_not_matched :
    (parseCue 0 5000 6000 "<01:23.456>hi").words =
      [⟨5000, "<01:23.456>hi"⟩] ∧
    ∀ w ∈ (parseCue 0 5000 6000 "<01:23.456>hi").words, w.time ≠ 83456 := by
  decide

theorem filterMap_marker_map (l : List MarkerSpec)
    (h : ∀ m ∈ l, trimChars m.tok ≠ []) :
    (l.map (fun m => ((⟨m.hh, m.mm, m.ss, m.ms⟩ : RawTimestamp), m.tok))).filterMap
      (fun m => if trimChars m.2 = [] then none
        else some (⟨timeToMs m.1, String.mk (trimChars m.2)⟩ : Word)) =
    l.map (fun m =>
      (⟨timeToMs ⟨m.hh, m.mm, m.ss, m.ms⟩, String.mk (trimChars m.tok)⟩ : Word)) := by
  induction l with
  | nil => rfl
  | cons m rest ih =>
    simp only [List.map_cons, List.filterMap_cons]
    rw [if_neg (h m (List.mem_cons_self m rest))]
    rw [ih (fun x hx => h x (List.mem_cons_of_mem m hx))]

/-- C2 amended: for every cue text composed of well-formed `HH:MM:SS.mmm`
markers each followed by a token (non-`<`, not all whitespace), `parse`
emits, for each marker in order, a word whose time is the timestamp
converted to (milli)seconds — hours×3600 + minutes×60 + seconds — and whose
text is the trimmed token.  Markers in the `MM:SS.mmm` form are NOT
recognized by the marker scan (the regex requires three two-digit groups),
so no word is emitted from them; only the `timeToSeconds` helper, never
reached with two-part strings from `parseCue`, supports that form. -/
theorem C2_parse_recovers_markers (cueIndex : ℕ) (startT endT : ℤ)
    (l : List MarkerSpec) (hwf : ∀ m ∈ l, m.wf) :
    (parseCue cueIndex startT endT (String.mk (renderMarkers l))).words =
      l.map (fun m =>
        (⟨(m.hh * 3600000 + m.mm * 60000 + m.ss * 1000 + m.ms : ℤ),
          String.mk (trimChars m.tok)⟩ : Word)) := by
  rw [parseCue_words]
  have htl : (String.mk (renderMarkers l)).toList = renderMarkers l := rfl
  rw [htl, scanMarkers_render l hwf]
  cases l with
  | nil =>
    rw [if_neg (fun hcond => hcond.2 rfl)]
    rfl
  | cons m rest =>
    rw [if_neg (by simp)]
    rw [List.append_nil]
    rw [filterMap_marker_map (m :: rest)
      (fun x hx => (hwf x hx).2.2.2.2.2)]
    rfl

theorem C2_witness :
    (parseCue 0 10000 14000
      (String.mk (renderMarkers
        [⟨0, 0, 10, 0, "Hello ".toList⟩, ⟨0, 0, 11, 500, "world".toList⟩]))).words =
      [⟨10000, "Hello"⟩, ⟨11500, "world"⟩] :=
  C2_parse_recovers_markers 0 10000 14000
    [⟨0, 0, 10, 0, "Hello ".toList⟩, ⟨0, 0, 11, 500, "world".toList⟩]
    (by decide)

/-- C8: for cue text containing no marker matches and at least one
non-whitespace character, `parse` returns exactly one word per
whitespace-delimited token of the text, in order, each with the cue's start
time. -/
theorem C8_fallback_one_word_per_token (cueIndex : ℕ) (startT endT : ℤ)
    (text : String) (hnomark : scanMarkers text.toList = [])
    (hchar : ∃ c ∈ text.toList, c.isWhitespace = false) :
    (parseCue cueIndex startT endT text).words =
      (wsTokens text.toList).map (fun tok => (⟨startT, String.mk tok⟩ : Word)) := by
  obtain ⟨c, hc, hwch⟩ := hchar
  have htrim : trimChars text.toList ≠ [] := trimChars_ne_nil hc hwch
  rw [parseCue_words, hnomark]
  simp only [List.filterMap_nil, List.nil_append]
  rw [if_pos ⟨by simp, htrim⟩]
  apply List.map_congr_left
  intro tok htok
  have hs := wsTokens_sound htok
  rw [trimChars_eq_self hs.2]

theorem C8_witness :
    (parseCue 3 7000 9000 "  hey   there ").words =
      (wsTokens "  hey   there ".toList).map
        (fun tok => (⟨7000, String.mk tok⟩ : Word)) :=
  C8_fallback_one_word_per_token 3 7000 9000 "  hey   there "
    (by decide) ⟨'h', by decide⟩
